import Mathlib

/-!
Verification of the comment-stripping engine of `tools/remove_commented_lines.py`
(and, for the comparison claim, the XML filter of `tools/remove_comments.py`).

Lines are modelled as `List Char` (terminator included, as produced by Python's
`readlines`).  Python regular expressions are modelled by equivalent executable
functions; each model notes the regex it embeds.  Whitespace is the ASCII part
of Python's `str.isspace` / regex `\s` class (non-ASCII Unicode whitespace is
not modelled; no claim depends on it).
-/

namespace StepsTracker

/-- ASCII whitespace as recognised by Python's `str.strip` and regex `\s`. -/
def isPySpace (c : Char) : Bool :=
  c = ' ' || c = '\t' || c = '\n' || c = '\r' || c = '\x0b' || c = '\x0c'

/-- A line of text, terminator included (Python `readlines` item). -/
abbrev Line := List Char

/-- String literal to `Line`. -/
def str (s : String) : Line := s.toList

/-- Python `line.lstrip()`. -/
def lstrip (l : Line) : Line := l.dropWhile isPySpace

/-- Python `line.rstrip()`. -/
def rstrip (l : Line) : Line := (l.reverse.dropWhile isPySpace).reverse

/-- Python `line.strip()`. -/
def pstrip (l : Line) : Line := rstrip (lstrip l)

/-- Python substring containment `pat in s`. -/
def containsSub (pat : Line) : Line → Bool
  | [] => pat.isEmpty
  | c :: rest => pat.isPrefixOf (c :: rest) || containsSub pat rest

/-- Model of `re.search(r"\*/\s*$", s)` (for `pat = "*/"`): some occurrence of
`pat` is followed only by whitespace, i.e. `rstrip s` ends with `pat`. -/
def searchCloserEnd (pat : Line) (s : Line) : Bool := pat.isSuffixOf (rstrip s)

/-- Scan for an occurrence of `pat` followed only by whitespace, where regex
`.` matched the characters before the occurrence — so a newline strictly
before the occurrence kills the match.  This is the tail of Python's
`re.match("^\s*OPEN.*?PAT\s*$", line)` after the opener `OPEN` has been
consumed (`.` does not match a newline; `\s` does). -/
def scanCloser (pat : Line) : Line → Bool
  | [] => false
  | c :: rest =>
      if pat.isPrefixOf (c :: rest) && ((c :: rest).drop pat.length).all isPySpace then
        true
      else if c = '\n' then false
      else scanCloser pat rest

/-- One C-like step of `remove_full_line_comments` (lines 63–91 of
`remove_commented_lines.py`): given the `in_block` flag and the line, return
the new flag and `some line` when the line is retained, `none` when removed.

The regex checks are modelled as follows, writing `stripped = line.lstrip()`:
`re.match(r"^\s*//", line)` holds iff `stripped` starts with `//`;
`re.match(r"^\s*/\*", line)` holds iff `stripped` starts with `/*` (the
greedy `\s*` is forced to consume exactly the leading whitespace since the
following literal is not whitespace); and the single-line form
`re.match(r"^\s*/\*.*?\*/\s*$", line)` holds iff after the opener a closer
`*/` occurs, preceded by no newline and followed only by whitespace
(`scanCloser`). -/
def clikeStep (in_block : Bool) (line : Line) : Bool × Option Line :=
  let stripped := lstrip line
  if in_block then
    -- if re.search(r"\*/\s*$", stripped) or "*/" in stripped: in_block = False
    (if searchCloserEnd (str "*/") stripped || containsSub (str "*/") stripped
      then false else true, none)
  else if (str "//").isPrefixOf stripped then
    (false, none)
  else if (str "/*").isPrefixOf stripped then
    if scanCloser (str "*/") (stripped.drop 2) then (false, none)
    else (true, none)
  else
    (false, some line)

/-- One XML step of `remove_full_line_comments` (lines 96–116 of
`remove_commented_lines.py`): `stripped = line.strip()`; inside a block the
line is removed and the block ends when `"-->" in stripped`; otherwise a line
whose `stripped` starts with `<!--` is removed, entering a block unless
`stripped` ends with `-->`. -/
def xmlStep (in_block : Bool) (line : Line) : Bool × Option Line :=
  let stripped := pstrip line
  if in_block then
    (if containsSub (str "-->") stripped then false else true, none)
  else if (str "<!--").isPrefixOf stripped then
    if (str "-->").isSuffixOf stripped then (false, none)
    else (true, none)
  else
    (false, some line)

/-- The block-state loop shared by the C-like and XML branches of
`remove_full_line_comments`: thread the `in_block` flag through `step`,
collecting retained lines and counting removed ones. -/
def runBlock (step : Bool → Line → Bool × Option Line) :
    Bool → List Line → List Line × Nat
  | _, [] => ([], 0)
  | b, line :: rest =>
      match step b line with
      | (b2, none) =>
          let r := runBlock step b2 rest
          (r.1, r.2 + 1)
      | (b2, some l) =>
          let r := runBlock step b2 rest
          (l :: r.1, r.2)

/-- The hash-dialect keep test (lines 119–129 of `remove_commented_lines.py`):
a shebang line (`lstrip` starts with `#!`) is kept; otherwise a line matching
`re.match(r"^\s*#", line)` — i.e. whose `lstrip` starts with `#` — is
removed; every other line is kept. -/
def hashKeep (line : Line) : Bool :=
  let stripped := lstrip line
  if (str "#!").isPrefixOf stripped then true
  else if (str "#").isPrefixOf stripped then false
  else true

/-- The hash-dialect loop of `remove_full_line_comments`. -/
def hashEngine : List Line → List Line × Nat
  | [] => ([], 0)
  | line :: rest =>
      let r := hashEngine rest
      if hashKeep line then (line :: r.1, r.2) else (r.1, r.2 + 1)

/-- `CLIKE_EXTS` of `remove_commented_lines.py`. -/
def CLIKE_EXTS : List String :=
  [".dart", ".kt", ".kts", ".java", ".swift", ".m", ".mm", ".js", ".ts",
   ".tsx", ".jsx", ".gradle"]

/-- `XML_EXTS` of `remove_commented_lines.py`. -/
def XML_EXTS : List String := [".xml", ".plist"]

/-- `HASH_EXTS` of `remove_commented_lines.py`. -/
def HASH_EXTS : List String := [".sh", ".yaml", ".yml"]

/-- `remove_full_line_comments(lines, ext)` of `remove_commented_lines.py`:
dispatch on the extension sets; unrecognised extensions pass through with a
removed count of 0. -/
def remove_full_line_comments (lines : List Line) (ext : String) :
    List Line × Nat :=
  if ext ∈ CLIKE_EXTS then runBlock clikeStep false lines
  else if ext ∈ XML_EXTS then runBlock xmlStep false lines
  else if ext ∈ HASH_EXTS then hashEngine lines
  else (lines, 0)

/-- The comment dialect of the spec's data model. -/
inductive Dialect
  | CLikeBlock
  | XmlBlock
  | HashLine
  | NoDialect
  deriving DecidableEq

/-- The file classifier: the extension-set dispatch of
`remove_full_line_comments`, read as the spec's `classify` function. -/
def classify (ext : String) : Dialect :=
  if ext ∈ CLIKE_EXTS then Dialect.CLikeBlock
  else if ext ∈ XML_EXTS then Dialect.XmlBlock
  else if ext ∈ HASH_EXTS then Dialect.HashLine
  else Dialect.NoDialect

/-- The extension of a bare file name as computed by `os.path.splitext(...)`
followed by `.lower()` in `process_file` of `remove_commented_lines.py`: the
suffix starting at the last dot, unless every character before that dot is a
dot, lower-cased. -/
def splitext_ext (name : String) : String :=
  let cs := name.toList
  match ((List.range cs.length).filter (fun i => cs.getD i ' ' = '.')).getLast? with
  | none => ""
  | some i =>
      if (cs.take i).all (fun c => c = '.') then ""
      else String.mk ((cs.drop i).map Char.toLower)

/-- Model of `RE_XML_SINGLE_LINE_COMMENT = re.compile(r"^\s*<!--.*-->\s*$")`
of `remove_comments.py`, applied with `re.match`: leading whitespace, the
opener `<!--`, then a closer `-->` preceded by no newline and followed only
by whitespace. -/
def reXmlSingleLineComment (line : Line) : Bool :=
  let s := lstrip line
  (str "<!--").isPrefixOf s && scanCloser (str "-->") (s.drop 4)

/-- The XML branch of `process_file` in `remove_comments.py`: keep exactly
the lines not matching `RE_XML_SINGLE_LINE_COMMENT` (single-line comment-only
nodes); no multi-line block tracking. -/
def xmlFilterRemoveComments (lines : List Line) : List Line :=
  lines.filter (fun l => !(reXmlSingleLineComment l))

/-- A well-formed text line: its newline character, if any, is the final
character.  Every item produced by Python `readlines` satisfies this. -/
def lineWf (l : Line) : Bool := !(l.dropLast.contains '\n')

/-- `pat` occurs in `l` as a contiguous substring. -/
def HasSub (pat l : Line) : Prop := ∃ a b, l = a ++ pat ++ b

/-- Spec-side reading (claim C1) of the single-line block-comment case: the
trimmed line begins with the opener `/*`, ends with a closer `*/` (followed in
the raw line only by whitespace), and is long enough that the opener and the
closer are disjoint occurrences. -/
def singleLineBlock (line : Line) : Bool :=
  (str "/*").isPrefixOf (pstrip line) && (str "*/").isSuffixOf (pstrip line)
    && decide (4 ≤ (pstrip line).length)

/-- Spec-side rule set of claim C1 for the CLikeBlock dialect: while in a
block a line is removed, the flag clearing exactly when the line contains
`*/`; otherwise a line beginning (after leading whitespace) with `//` is
removed; otherwise a line beginning with `/*` is removed, leaving the flag
false exactly in the single-line case; every other line is retained. -/
def clikeRulesStep (in_block : Bool) (line : Line) : Bool × Option Line :=
  if in_block then
    (if containsSub (str "*/") line then false else true, none)
  else if (str "//").isPrefixOf (lstrip line) then
    (false, none)
  else if (str "/*").isPrefixOf (lstrip line) then
    (if singleLineBlock line then false else true, none)
  else
    (false, some line)

/-- Engine running claim C1's rule set from a clear block flag. -/
def clikeRulesEngine (lines : List Line) : List Line × Nat :=
  runBlock clikeRulesStep false lines

/-- Spec-side rule set of claim C4 for the XmlBlock dialect: while in a block
a line is removed, the flag clearing exactly when the line contains `-->`;
otherwise a line whose trimmed content starts with `<!--` is removed, the
flag staying false exactly when the trimmed content also ends with `-->`;
every other line is retained. -/
def xmlRulesStep (in_block : Bool) (line : Line) : Bool × Option Line :=
  if in_block then
    (if containsSub (str "-->") line then false else true, none)
  else if (str "<!--").isPrefixOf (pstrip line) then
    if (str "-->").isSuffixOf (pstrip line) then (false, none)
    else (true, none)
  else
    (false, some line)

/-- Engine running claim C4's rule set from a clear block flag. -/
def xmlRulesEngine (lines : List Line) : List Line × Nat :=
  runBlock xmlRulesStep false lines

/-- Spec-side rule of claim C5 for the HashLine dialect: keep a line whose
content after leading whitespace starts with `#!`; drop a line whose content
after leading whitespace starts with `#`; keep everything else. -/
def hashRulesKeep (line : Line) : Bool :=
  if (str "#!").isPrefixOf (lstrip line) then true
  else if (str "#").isPrefixOf (lstrip line) then false
  else true

/-- A line the C-like engine can retain: neither `//` nor `/*` after leading
whitespace.  Lines in the engine's output satisfy this, which drives
idempotence. -/
def clikeKeep (line : Line) : Bool :=
  !((str "//").isPrefixOf (lstrip line)) && !((str "/*").isPrefixOf (lstrip line))

/-- A line the XML engine can retain: trimmed content does not start with
`<!--`. -/
def xmlKeep (line : Line) : Bool :=
  !((str "<!--").isPrefixOf (pstrip line))

lemma prefixOf_iff {l1 l2 : Line} : l1.isPrefixOf l2 = true ↔ ∃ t, l1 ++ t = l2 := by
  rw [ List.isPrefixOf_iff_prefix]; exact Iff.rfl

lemma suffixOf_iff {l1 l2 : Line} : l1.isSuffixOf l2 = true ↔ ∃ t, t ++ l1 = l2 := by
  rw [ List.isSuffixOf_iff_suffix]; exact Iff.rfl

lemma containsSub_iff {pat : Line} : ∀ {l : Line},
    containsSub pat l = true ↔ HasSub pat l := by
  intro l
  induction l with
  | nil =>
      simp only [containsSub, HasSub, List.isEmpty_iff]
      constructor
      · rintro rfl; exact ⟨[], [], rfl⟩
      · rintro ⟨a, b, h⟩
        rcases List.append_eq_nil.mp h.symm with ⟨h1, h2⟩
        exact (List.append_eq_nil.mp h1).2
  | cons c rest ih =>
      simp only [containsSub, Bool.or_eq_true]
      constructor
      · rintro (hp | hc)
        · obtain ⟨t, ht⟩ := prefixOf_iff.mp hp
          exact ⟨[], t, ht.symm⟩
        · obtain ⟨a, b, h⟩ := ih.mp hc
          exact ⟨c :: a, b, by simp [h]⟩
      · rintro ⟨a, b, h⟩
        cases a with
        | nil =>
            exact Or.inl (prefixOf_iff.mpr ⟨b, by simpa using h.symm⟩)
        | cons d a2 =>
            simp only [List.cons_append, List.cons.injEq] at h
            exact Or.inr (ih.mpr ⟨a2, b, h.2⟩)

lemma hasSub_rev_of {pat l : Line} (h : HasSub pat l) :
    HasSub pat.reverse l.reverse := by
  obtain ⟨a, b, rfl⟩ := h
  exact ⟨b.reverse, a.reverse, by simp⟩

lemma hasSub_reverse {pat l : Line} : HasSub pat l ↔ HasSub pat.reverse l.reverse :=
  ⟨hasSub_rev_of, fun h => by simpa using hasSub_rev_of h⟩

lemma hasSub_dropWhile_mpr {c : Char} {pr : Line} (hc : isPySpace c = false) :
    ∀ (a b : Line), HasSub (c :: pr) ((a ++ (c :: pr) ++ b).dropWhile isPySpace) := by
  intro a
  induction a with
  | nil =>
      intro b
      simp only [List.nil_append, List.cons_append, List.dropWhile_cons, hc]
      exact ⟨[], b, by simp⟩
  | cons d a2 ih =>
      intro b
      simp only [List.cons_append, List.dropWhile_cons]
      by_cases hd : isPySpace d = true
      · simpa [hd] using ih b
      · simp only [Bool.not_eq_true] at hd
        simp only [hd, Bool.false_eq_true, if_false]
        exact ⟨d :: (a2 ++ (c :: pr) ++ b).takeWhile (fun _ => false) ++ a2, b, by simp⟩

lemma hasSub_dropWhile {c : Char} {pr l : Line} (hc : isPySpace c = false) :
    HasSub (c :: pr) (l.dropWhile isPySpace) ↔ HasSub (c :: pr) l := by
  constructor
  · rintro ⟨a, b, h⟩
    refine ⟨l.takeWhile isPySpace ++ a, b, ?_⟩
    conv_lhs => rw [← List.takeWhile_append_dropWhile isPySpace l]
    rw [h]; simp
  · rintro ⟨a, b, rfl⟩
    exact hasSub_dropWhile_mpr hc a b

lemma hasSub_lstrip {c : Char} {pr l : Line} (hc : isPySpace c = false) :
    HasSub (c :: pr) (lstrip l) ↔ HasSub (c :: pr) l :=
  hasSub_dropWhile hc

lemma hasSub_rstrip {pat : Line} {c : Char} {pr : Line}
    (hp : pat.reverse = c :: pr) (hc : isPySpace c = false) {l : Line} :
    HasSub pat (rstrip l) ↔ HasSub pat l := by
  rw [@hasSub_reverse pat (rstrip l), rstrip, List.reverse_reverse, hp,
    @hasSub_dropWhile c pr l.reverse hc, ← hp, ← @hasSub_reverse pat l]

lemma contains_lstrip {c : Char} {pr : Line} (hc : isPySpace c = false) (l : Line) :
    containsSub (c :: pr) (lstrip l) = containsSub (c :: pr) l := by
  rw [Bool.eq_iff_iff, containsSub_iff, containsSub_iff]
  exact hasSub_lstrip hc

lemma contains_pstrip {pat : Line} {c c2 : Char} {pr pr2 : Line}
    (hp : pat = c :: pr) (hc : isPySpace c = false)
    (hp2 : pat.reverse = c2 :: pr2) (hc2 : isPySpace c2 = false) (l : Line) :
    containsSub pat (pstrip l) = containsSub pat l := by
  rw [Bool.eq_iff_iff, containsSub_iff, containsSub_iff, pstrip,
    hasSub_rstrip hp2 hc2, hp, hasSub_lstrip hc]

lemma rstrip_decomp (l : Line) :
    ∃ w, l = rstrip l ++ w ∧ w.all isPySpace = true := by
  refine ⟨(l.reverse.takeWhile isPySpace).reverse, ?_, ?_⟩
  · conv_lhs => rw [← List.reverse_reverse l,
      ← List.takeWhile_append_dropWhile isPySpace l.reverse]
    rw [List.reverse_append]; rfl
  · rw [List.all_eq_true]
    intro x hx
    exact List.mem_takeWhile_imp (List.mem_reverse.mp hx)

lemma dropWhile_append_all {p : Char → Bool} : ∀ {a : Line}, a.all p = true →
    ∀ (l : Line), (a ++ l).dropWhile p = l.dropWhile p := by
  intro a
  induction a with
  | nil => intro _ l; rfl
  | cons d a2 ih =>
      intro h l
      rw [List.all_cons, Bool.and_eq_true] at h
      simp [List.dropWhile_cons, h.1, ih h.2 l]

lemma dropWhile_append_ne {p : Char → Bool} : ∀ {a : Line}, a.dropWhile p ≠ [] →
    ∀ (l : Line), (a ++ l).dropWhile p = a.dropWhile p ++ l := by
  intro a
  induction a with
  | nil => intro h _; exact absurd rfl h
  | cons d a2 ih =>
      intro h l
      by_cases hd : p d = true
      · rw [List.dropWhile_cons, if_pos hd] at h
        simp [List.dropWhile_cons, hd, ih h l]
      · simp only [Bool.not_eq_true] at hd
        simp [List.dropWhile_cons, hd]

lemma rstrip_append_all {b : Line} (hb : b.all isPySpace = true) (x : Line) :
    rstrip (x ++ b) = rstrip x := by
  rw [rstrip, rstrip, List.reverse_append, dropWhile_append_all (by simpa using hb)]

lemma rstrip_append_nonws (a : Line) (d : Char) (hd : isPySpace d = false) :
    rstrip (a ++ [d]) = a ++ [d] := by
  rw [rstrip, List.reverse_append]
  simp [List.dropWhile_cons, hd]

lemma rstrip_eq_nil_iff {l : Line} : rstrip l = [] ↔ l.all isPySpace = true := by
  rw [rstrip, List.reverse_eq_nil_iff, List.dropWhile_eq_nil_iff, List.all_eq_true]
  constructor
  · intro h x hx; exact h x (List.mem_reverse.mpr hx)
  · intro h x hx; exact h x (List.mem_reverse.mp hx)

lemma rstrip_append_of_ne {u : Line} (hu : rstrip u ≠ []) (x : Line) :
    rstrip (x ++ u) = x ++ rstrip u := by
  have h2 : u.reverse.dropWhile isPySpace ≠ [] := by
    intro h; exact hu (by rw [rstrip, h]; rfl)
  rw [rstrip, List.reverse_append, dropWhile_append_ne h2, List.reverse_append,
    List.reverse_reverse, rstrip]

lemma rstrip_closer {b : Line} (hb : b.all isPySpace = true) (a : Line) :
    rstrip (a ++ str "*/" ++ b) = a ++ str "*/" := by
  rw [List.append_assoc, ← List.append_assoc a (str "*/") b,
    rstrip_append_all hb]
  rw [show str "*/" = ['*'] ++ ['/'] from rfl, ← List.append_assoc]
  exact rstrip_append_nonws (a ++ ['*']) '/' (by decide)

lemma closer_suffix_iff {l : Line} :
    (str "*/").isSuffixOf (rstrip l) = true ↔
      ∃ a b, l = a ++ str "*/" ++ b ∧ b.all isPySpace = true := by
  constructor
  · intro h
    obtain ⟨t, ht⟩ := suffixOf_iff.mp h
    obtain ⟨w, hw, hws⟩ := rstrip_decomp l
    exact ⟨t, w, by rw [hw, ← ht], hws⟩
  · rintro ⟨a, b, rfl, hb⟩
    rw [rstrip_closer hb]
    exact suffixOf_iff.mpr ⟨a, rfl⟩

lemma scanCloser_sound {pat : Line} : ∀ {u : Line}, scanCloser pat u = true →
    ∃ a b, u = a ++ pat ++ b ∧ b.all isPySpace = true := by
  intro u
  induction u with
  | nil => intro h; simp [scanCloser] at h
  | cons c rest ih =>
      intro h
      rw [scanCloser] at h
      by_cases h1 : (pat.isPrefixOf (c :: rest)
          && ((c :: rest).drop pat.length).all isPySpace) = true
      · rw [Bool.and_eq_true] at h1
        obtain ⟨t, ht⟩ := prefixOf_iff.mp h1.1
        refine ⟨[], t, by simpa using ht.symm, ?_⟩
        have h5 : (c :: rest).drop pat.length = t := by rw [← ht, List.drop_left]
        rw [h5] at h1
        exact h1.2
      · rw [if_neg h1] at h
        by_cases h2 : c = '\n'
        · rw [if_pos h2] at h
          exact absurd h (by simp)
        · rw [if_neg h2] at h
          obtain ⟨a, b, h3, h4⟩ := ih h
          exact ⟨c :: a, b, by simp [h3], h4⟩

lemma scanCloser_complete {pat : Line} (hne : pat ≠ []) :
    ∀ (a b : Line), (∀ x ∈ a, x ≠ '\n') → b.all isPySpace = true →
      scanCloser pat (a ++ pat ++ b) = true := by
  intro a
  induction a with
  | nil =>
      intro b _ hb
      cases pat with
      | nil => exact absurd rfl hne
      | cons p0 pr =>
          rw [List.nil_append, List.cons_append, scanCloser, if_pos]
          rw [Bool.and_eq_true, ← List.cons_append]
          refine ⟨prefixOf_iff.mpr ⟨b, rfl⟩, ?_⟩
          rw [List.drop_left]
          exact hb
  | cons d a2 ih =>
      intro b ha hb
      rw [List.cons_append, List.cons_append, scanCloser]
      split_ifs with h1 h2
      · rfl
      · exact absurd h2 (ha d (List.mem_cons_self d a2))
      · exact ih b (fun x hx => ha x (List.mem_cons_of_mem d hx)) hb

lemma searchOr_eq_contains (s : Line) :
    (searchCloserEnd (str "*/") s || containsSub (str "*/") s)
      = containsSub (str "*/") s := by
  cases h : searchCloserEnd (str "*/") s
  · simp
  · rw [searchCloserEnd] at h
    obtain ⟨a, b, hd, hb⟩ := closer_suffix_iff.mp h
    simp only [Bool.true_or]
    exact (containsSub_iff.mpr ⟨a, b, hd⟩).symm

lemma wf_no_newline {line : Line} (hw : lineWf line = true) {x : Char}
    (hx : x ∈ line.dropLast) : x ≠ '\n' := by
  intro hxe
  rw [lineWf, Bool.not_eq_true'] at hw
  subst hxe
  have h2 : line.dropLast.contains '\n' = true := List.elem_iff.mpr hx
  rw [hw] at h2
  exact Bool.false_ne_true h2

/-- On a well-formed line starting (after leading whitespace) with `/*`, the
regex check of the code — a closer after the opener, preceded by no newline
and followed only by whitespace — coincides with the spec-side reading
`singleLineBlock`. -/
lemma scan_eq_singleLineBlock {line : Line} (hw : lineWf line = true)
    (hpre : (str "/*").isPrefixOf (lstrip line) = true) :
    scanCloser (str "*/") ((lstrip line).drop 2) = singleLineBlock line := by
  obtain ⟨u, hu⟩ := prefixOf_iff.mp hpre
  have hdrop : (lstrip line).drop 2 = u := by
    rw [← hu, show (2 : Nat) = (str "/*").length from rfl, List.drop_left]
  have hps : pstrip line = rstrip (str "/*" ++ u) := by rw [pstrip, hu]
  have husuffix : ∃ s, s ++ u = line := by
    have h1 : lstrip line <:+ line := List.dropWhile_suffix isPySpace
    have h2 : u <:+ lstrip line := by
      rw [← hdrop]; exact List.drop_suffix 2 (lstrip line)
    exact h2.trans h1
  rw [Bool.eq_iff_iff, hdrop]
  constructor
  · intro hscan
    obtain ⟨a, b, hab, hb⟩ := scanCloser_sound hscan
    have hps2 : pstrip line = (str "/*" ++ a) ++ str "*/" := by
      rw [hps, hab,
        show str "/*" ++ (a ++ str "*/" ++ b) = (str "/*" ++ a) ++ str "*/" ++ b
          by simp [List.append_assoc],
        rstrip_closer hb]
    rw [singleLineBlock, hps2]
    simp only [Bool.and_eq_true, decide_eq_true_eq]
    refine ⟨⟨prefixOf_iff.mpr ⟨a ++ str "*/", by simp [List.append_assoc]⟩,
      suffixOf_iff.mpr ⟨str "/*" ++ a, rfl⟩⟩, ?_⟩
    have hL1 : (str "/*").length = 2 := rfl
    have hL2 : (str "*/").length = 2 := rfl
    simp only [List.length_append, hL1, hL2]
    omega
  · intro hblk
    rw [singleLineBlock, Bool.and_eq_true, Bool.and_eq_true, decide_eq_true_eq]
      at hblk
    obtain ⟨⟨_, hs2⟩, hlen⟩ := hblk
    by_cases hru : rstrip u = []
    · exfalso
      have hall := rstrip_eq_nil_iff.mp hru
      have hps4 : pstrip line = str "/*" := by
        rw [hps, rstrip_append_all hall,
          show str "/*" = ['/'] ++ ['*'] from rfl]
        exact rstrip_append_nonws ['/'] '*' (by decide)
      rw [hps4] at hlen
      have hL1 : (str "/*").length = 2 := rfl
      omega
    · have hps3 : pstrip line = str "/*" ++ rstrip u := by
        rw [hps, rstrip_append_of_ne hru]
      rw [hps3] at hs2 hlen
      have hL1 : (str "/*").length = 2 := rfl
      have hlen2 : 2 ≤ (rstrip u).length := by
        rw [List.length_append, hL1] at hlen; omega
      obtain ⟨t, ht⟩ := suffixOf_iff.mp hs2
      have hL2 : (str "*/").length = 2 := rfl
      cases t with
      | nil =>
          exfalso
          have hL := congrArg List.length ht
          rw [List.nil_append, List.length_append, hL1, hL2] at hL
          omega
      | cons x t1 =>
          cases t1 with
          | nil =>
              exfalso
              have hL := congrArg List.length ht
              rw [List.length_append, List.length_append, hL1, hL2,
                List.length_cons, List.length_nil] at hL
              omega
          | cons y t2 =>
              rw [show str "/*" = '/' :: '*' :: ([] : Line) from rfl] at ht
              simp only [List.cons_append, List.nil_append, List.cons.injEq] at ht
              have ht2 : t2 ++ str "*/" = rstrip u := ht.2.2
              obtain ⟨w, hwdec, hwall⟩ := rstrip_decomp u
              rw [← ht2] at hwdec
              have hune : u ≠ [] := by
                rw [hwdec]; simp [show str "*/" = ['*', '/'] from rfl]
              have hmem : ∀ z ∈ t2, z ≠ '\n' := by
                intro z hz
                have hzu : z ∈ u.dropLast := by
                  rw [hwdec, List.append_assoc,
                    List.dropLast_append_of_ne_nil t2
                      (by simp [show str "*/" = ['*', '/'] from rfl])]
                  exact List.mem_append.mpr (Or.inl hz)
                obtain ⟨s, hsu⟩ := husuffix
                have hzl : z ∈ line.dropLast := by
                  rw [← hsu, List.dropLast_append_of_ne_nil s hune]
                  exact List.mem_append.mpr (Or.inr hzu)
                exact wf_no_newline hw hzl
              rw [hwdec]
              exact scanCloser_complete (by decide) t2 w hmem hwall

/-- Under well-formedness of the line, the C-like step of the code equals the
spec-side rule set of claim C1. -/
lemma clikeStep_eq_rules {line : Line} (hw : lineWf line = true) (b : Bool) :
    clikeStep b line = clikeRulesStep b line := by
  cases b
  · by_cases h1 : (str "//").isPrefixOf (lstrip line) = true
    · simp [clikeStep, clikeRulesStep, h1]
    · by_cases h2 : (str "/*").isPrefixOf (lstrip line) = true
      · cases h3 : singleLineBlock line <;>
          simp [clikeStep, clikeRulesStep, h1, h2,
            scan_eq_singleLineBlock hw h2, h3]
      · simp [clikeStep, clikeRulesStep, h1, h2]
  · simp only [clikeStep, clikeRulesStep]
    rw [searchOr_eq_contains,
      show str "*/" = '*' :: ['/'] from rfl, contains_lstrip (by decide)]
    simp

/-- The XML step of the code equals the spec-side rule set of claim C4. -/
lemma xmlStep_eq_rules (line : Line) (b : Bool) :
    xmlStep b line = xmlRulesStep b line := by
  cases b
  · rfl
  · simp only [xmlStep, xmlRulesStep]
    rw [contains_pstrip (show str "-->" = '-' :: ['-', '>'] from rfl) (by decide)
      (show (str "-->").reverse = '>' :: ['-', '-'] from rfl) (by decide)]

/-- The hash keep test of the code equals the spec-side rule of claim C5. -/
lemma hashKeep_eq_rules (line : Line) : hashKeep line = hashRulesKeep line := rfl

lemma runBlock_congr (s1 s2 : Bool → Line → Bool × Option Line) :
    ∀ (lines : List Line) (b : Bool), (∀ b2 l, l ∈ lines → s1 b2 l = s2 b2 l) →
      runBlock s1 b lines = runBlock s2 b lines := by
  intro lines
  induction lines with
  | nil => intro b _; rfl
  | cons x rest ih =>
      intro b h
      have hx : s1 b x = s2 b x := h b x (List.mem_cons_self x rest)
      have hr : ∀ b2, runBlock s1 b2 rest = runBlock s2 b2 rest :=
        fun b2 => ih b2 (fun b3 l hl => h b3 l (List.mem_cons_of_mem x hl))
      simp only [runBlock, hx]
      cases hso : s2 b x with
      | mk b2 o => cases o <;> simp [hr b2]

lemma runBlock_count (step : Bool → Line → Bool × Option Line) :
    ∀ (lines : List Line) (b : Bool),
      (runBlock step b lines).1.length + (runBlock step b lines).2
        = lines.length := by
  intro lines
  induction lines with
  | nil => intro b; rfl
  | cons x rest ih =>
      intro b
      simp only [runBlock]
      cases hso : step b x with
      | mk b2 o =>
          have h2 := ih b2
          cases o <;> simp <;> omega

lemma runBlock_sublist (step : Bool → Line → Bool × Option Line)
    (hstep : ∀ b l b2 x, step b l = (b2, some x) → x = l) :
    ∀ (lines : List Line) (b : Bool),
      List.Sublist (runBlock step b lines).1 lines := by
  intro lines
  induction lines with
  | nil => intro b; exact List.Sublist.refl []
  | cons x rest ih =>
      intro b
      simp only [runBlock]
      cases hso : step b x with
      | mk b2 o =>
          cases o with
          | none => exact List.Sublist.cons x (ih b2)
          | some y =>
              have hy : y = x := hstep b x b2 y hso
              subst hy
              exact List.Sublist.cons₂ y (ih b2)

lemma runBlock_keeps (step : Bool → Line → Bool × Option Line)
    (keepP : Line → Bool)
    (hA : ∀ b l b2 x, step b l = (b2, some x) → keepP x = true) :
    ∀ (lines : List Line) (b : Bool) (l : Line),
      l ∈ (runBlock step b lines).1 → keepP l = true := by
  intro lines
  induction lines with
  | nil => intro b l hl; simp [runBlock] at hl
  | cons x rest ih =>
      intro b l hl
      simp only [runBlock] at hl
      cases hso : step b x with
      | mk b2 o =>
          rw [hso] at hl
          cases o with
          | none => exact ih b2 l hl
          | some y =>
              rcases List.mem_cons.mp hl with h | h
              · subst h; exact hA b x b2 l hso
              · exact ih b2 l h

lemma runBlock_all_kept (step : Bool → Line → Bool × Option Line)
    (keepP : Line → Bool)
    (hB : ∀ l, keepP l = true → step false l = (false, some l)) :
    ∀ (lines : List Line), (∀ l ∈ lines, keepP l = true) →
      runBlock step false lines = (lines, 0) := by
  intro lines
  induction lines with
  | nil => intro _; rfl
  | cons x rest ih =>
      intro h
      have hx := hB x (h x (List.mem_cons_self x rest))
      simp only [runBlock, hx]
      rw [ih (fun l hl => h l (List.mem_cons_of_mem x hl))]

lemma hashEngine_eq (lines : List Line) :
    hashEngine lines = (lines.filter hashRulesKeep,
      (lines.filter (fun l => !hashRulesKeep l)).length) := by
  induction lines with
  | nil => rfl
  | cons x rest ih =>
      cases h : hashRulesKeep x <;>
        simp [hashEngine, hashKeep_eq_rules, h, ih, List.filter_cons]

lemma hashEngine_count (lines : List Line) :
    (hashEngine lines).1.length + (hashEngine lines).2 = lines.length := by
  induction lines with
  | nil => rfl
  | cons x rest ih =>
      simp only [hashEngine]
      cases h : hashKeep x <;> simp <;> omega

lemma hashEngine_sublist (lines : List Line) :
    List.Sublist (hashEngine lines).1 lines := by
  rw [hashEngine_eq]
  exact List.filter_sublist lines

lemma hashEngine_all_kept :
    ∀ (lines : List Line), (∀ l ∈ lines, hashRulesKeep l = true) →
      hashEngine lines = (lines, 0) := by
  intro lines
  induction lines with
  | nil => intro _; rfl
  | cons x rest ih =>
      intro h
      have hx := h x (List.mem_cons_self x rest)
      rw [← hashKeep_eq_rules] at hx
      simp only [hashEngine, hx, if_true]
      rw [ih (fun l hl => h l (List.mem_cons_of_mem x hl))]

lemma clikeStep_some {b : Bool} {l : Line} {b2 : Bool} {x : Line}
    (h : clikeStep b l = (b2, some x)) : x = l ∧ clikeKeep l = true := by
  simp only [clikeStep] at h
  split_ifs at h with h0 hc h1 h2 h3 <;> rw [Prod.mk.injEq] at h
  · exact absurd h.2 (by simp)
  · exact absurd h.2 (by simp)
  · exact absurd h.2 (by simp)
  · exact absurd h.2 (by simp)
  · exact absurd h.2 (by simp)
  · refine ⟨(Option.some.inj h.2).symm, ?_⟩
    have e1 : (str "//").isPrefixOf (lstrip l) = false := by
      revert h1; cases (str "//").isPrefixOf (lstrip l) <;> simp
    have e2 : (str "/*").isPrefixOf (lstrip l) = false := by
      revert h2; cases (str "/*").isPrefixOf (lstrip l) <;> simp
    simp [clikeKeep, e1, e2]

lemma clikeStep_keep {l : Line} (h : clikeKeep l = true) :
    clikeStep false l = (false, some l) := by
  rw [clikeKeep, Bool.and_eq_true, Bool.not_eq_true', Bool.not_eq_true'] at h
  simp [clikeStep, h.1, h.2]

lemma xmlStep_some {b : Bool} {l : Line} {b2 : Bool} {x : Line}
    (h : xmlStep b l = (b2, some x)) : x = l ∧ xmlKeep l = true := by
  simp only [xmlStep] at h
  split_ifs at h with h0 hc h1 h2 <;> rw [Prod.mk.injEq] at h
  · exact absurd h.2 (by simp)
  · exact absurd h.2 (by simp)
  · exact absurd h.2 (by simp)
  · exact absurd h.2 (by simp)
  · refine ⟨(Option.some.inj h.2).symm, ?_⟩
    have e1 : (str "<!--").isPrefixOf (pstrip l) = false := by
      revert h1; cases (str "<!--").isPrefixOf (pstrip l) <;> simp
    simp [xmlKeep, e1]

lemma xmlStep_keep {l : Line} (h : xmlKeep l = true) :
    xmlStep false l = (false, some l) := by
  rw [xmlKeep, Bool.not_eq_true'] at h
  simp [xmlStep, h]

lemma classify_clike {ext : String} (h : classify ext = Dialect.CLikeBlock) :
    ext ∈ CLIKE_EXTS := by
  by_contra hm
  rw [classify, if_neg hm] at h
  split_ifs at h

lemma classify_xml {ext : String} (h : classify ext = Dialect.XmlBlock) :
    ext ∉ CLIKE_EXTS ∧ ext ∈ XML_EXTS := by
  rw [classify] at h
  split_ifs at h with h1 h2 h3
  exact ⟨h1, h2⟩

lemma classify_hash {ext : String} (h : classify ext = Dialect.HashLine) :
    ext ∉ CLIKE_EXTS ∧ ext ∉ XML_EXTS ∧ ext ∈ HASH_EXTS := by
  rw [classify] at h
  split_ifs at h with h1 h2 h3
  exact ⟨h1, h2, h3⟩

/-- C1: for every CLikeBlock-classified extension and every sequence of
well-formed lines (newline only terminal, as `readlines` yields),
`remove_full_line_comments` implements the spec's ordered CLikeBlock rule
set `clikeRulesEngine`: inside a block a line is removed and the flag clears
exactly when the line contains a closer; otherwise a `//` line is removed;
otherwise a `/*` line is removed, the flag staying false exactly in the
single-line case; every other line is retained.  In particular the input
lines `a();`, `/* start`, ` middle`, ` end */`, `b();` yield retained
`a();`, `b();` with removed count 3. -/
theorem clike_rules_implemented :
    (∀ (ext : String) (lines : List Line), classify ext = Dialect.CLikeBlock →
        (∀ l ∈ lines, lineWf l = true) →
        remove_full_line_comments lines ext = clikeRulesEngine lines) ∧
    remove_full_line_comments
        (List.map str ["a();", "/* start", " middle", " end */", "b();"]) ".dart"
      = (List.map str ["a();", "b();"], 3) := by
  constructor
  · intro ext lines hc hw
    rw [remove_full_line_comments, if_pos (classify_clike hc), clikeRulesEngine]
    exact runBlock_congr clikeStep clikeRulesStep lines false
      (fun b2 l hl => clikeStep_eq_rules (hw l hl) b2)
  · decide

/-- Witness for C1 at a concrete classified extension and well-formed line. -/
theorem clike_rules_implemented_witness :
    remove_full_line_comments [str "x();\n"] ".dart"
      = clikeRulesEngine [str "x();\n"] :=
  clike_rules_implemented.1 ".dart" [str "x();\n"] (by decide) (by decide)

/-- C2: for every input and extension, retained length plus removed count
equals the input length. -/
theorem retained_plus_removed_eq_input_length :
    ∀ (lines : List Line) (ext : String),
      (remove_full_line_comments lines ext).1.length
        + (remove_full_line_comments lines ext).2 = lines.length := by
  intro lines ext
  rw [remove_full_line_comments]
  split_ifs
  · exact runBlock_count clikeStep lines false
  · exact runBlock_count xmlStep lines false
  · exact hashEngine_count lines
  · rfl

/-- C3: the stripper engine is idempotent — rerunning it on its own retained
output returns that output unchanged with removed count 0. -/
theorem stripper_idempotent :
    ∀ (lines : List Line) (ext : String),
      remove_full_line_comments (remove_full_line_comments lines ext).1 ext
        = ((remove_full_line_comments lines ext).1, 0) := by
  intro lines ext
  rw [remove_full_line_comments, remove_full_line_comments]
  split_ifs
  · exact runBlock_all_kept clikeStep clikeKeep (fun l hl => clikeStep_keep hl) _
      (fun l hl => runBlock_keeps clikeStep clikeKeep
        (fun b l' b2 x h => by
          obtain ⟨hx, hk⟩ := clikeStep_some h; rw [hx]; exact hk)
        lines false l hl)
  · exact runBlock_all_kept xmlStep xmlKeep (fun l hl => xmlStep_keep hl) _
      (fun l hl => runBlock_keeps xmlStep xmlKeep
        (fun b l' b2 x h => by
          obtain ⟨hx, hk⟩ := xmlStep_some h; rw [hx]; exact hk)
        lines false l hl)
  · refine hashEngine_all_kept _ (fun l hl => ?_)
    rw [hashEngine_eq lines] at hl
    exact (List.mem_filter.mp hl).2
  · rfl

/-- C4: for every XmlBlock-classified extension,
`remove_full_line_comments` implements the spec's ordered XmlBlock rule set
`xmlRulesEngine`: inside a block a line is removed and the flag clears
exactly when the line contains `-->`; otherwise a line whose trimmed content
starts with `<!--` is removed, the flag staying false exactly when the
trimmed content also ends with `-->`; every other line is retained.  In
particular `<!-- note -->` then `<tag/>` yields retained `<tag/>` with
removed count 1. -/
theorem xml_rules_implemented :
    (∀ (ext : String) (lines : List Line), classify ext = Dialect.XmlBlock →
        remove_full_line_comments lines ext = xmlRulesEngine lines) ∧
    remove_full_line_comments (List.map str ["<!-- note -->", "<tag/>"]) ".xml"
      = ([str "<tag/>"], 1) := by
  constructor
  · intro ext lines hc
    obtain ⟨h1, h2⟩ := classify_xml hc
    rw [remove_full_line_comments, if_neg h1, if_pos h2, xmlRulesEngine]
    exact runBlock_congr xmlStep xmlRulesStep lines false
      (fun b2 l _ => xmlStep_eq_rules l b2)
  · decide

/-- Witness for C4 at a concrete classified extension. -/
theorem xml_rules_implemented_witness :
    remove_full_line_comments [str "<a/>\n"] ".plist"
      = xmlRulesEngine [str "<a/>\n"] :=
  xml_rules_implemented.1 ".plist" [str "<a/>\n"] (by decide)

/-- C5: for every HashLine-classified extension the engine keeps exactly the
lines allowed by the spec rule `hashRulesKeep` (shebang lines kept, `#`
lines removed, others kept), and a file starting with `#!/bin/sh` retains
that line verbatim. -/
theorem hash_rules_implemented :
    (∀ (ext : String) (lines : List Line), classify ext = Dialect.HashLine →
        remove_full_line_comments lines ext
          = (lines.filter hashRulesKeep,
             (lines.filter (fun l => !hashRulesKeep l)).length)) ∧
    remove_full_line_comments [str "#!/bin/sh\n", str "# note\n"] ".sh"
      = ([str "#!/bin/sh\n"], 1) := by
  constructor
  · intro ext lines hc
    obtain ⟨h1, h2, h3⟩ := classify_hash hc
    rw [remove_full_line_comments, if_neg h1, if_neg h2, if_pos h3]
    exact hashEngine_eq lines
  · decide

/-- Witness for C5 at a concrete classified extension. -/
theorem hash_rules_implemented_witness :
    remove_full_line_comments [str "#!/bin/sh\n", str "key: v\n"] ".yaml"
      = ([str "#!/bin/sh\n", str "key: v\n"].filter hashRulesKeep,
         ([str "#!/bin/sh\n", str "key: v\n"].filter
            (fun l => !hashRulesKeep l)).length) :=
  hash_rules_implemented.1 ".yaml" [str "#!/bin/sh\n", str "key: v\n"] (by decide)

/-- C6: every retained line is one of the input lines, unaltered, and the
retained lines form a subsequence of the input (original order preserved). -/
theorem retained_lines_form_sublist :
    ∀ (lines : List Line) (ext : String),
      List.Sublist (remove_full_line_comments lines ext).1 lines ∧
      ∀ l ∈ (remove_full_line_comments lines ext).1, l ∈ lines := by
  intro lines ext
  have hs : List.Sublist (remove_full_line_comments lines ext).1 lines := by
    rw [remove_full_line_comments]
    split_ifs
    · exact runBlock_sublist clikeStep
        (fun b l b2 x h => (clikeStep_some h).1) lines false
    · exact runBlock_sublist xmlStep
        (fun b l b2 x h => (xmlStep_some h).1) lines false
    · exact hashEngine_sublist lines
    · exact List.Sublist.refl lines
  exact ⟨hs, fun l hl => hs.subset hl⟩

/-- C7: the classifier's dialect membership is exactly the spec's table, and
a file named with the two-segment suffix `.gradle.kts` is classified
CLikeBlock via its final `.kts` segment. -/
theorem classifier_table :
    (∀ e : String, classify e = Dialect.CLikeBlock ↔
        e ∈ [".dart", ".kt", ".kts", ".java", ".swift", ".m", ".mm", ".js",
             ".ts", ".tsx", ".jsx", ".gradle"]) ∧
    (∀ e : String, classify e = Dialect.XmlBlock ↔ e ∈ [".xml", ".plist"]) ∧
    (∀ e : String, classify e = Dialect.HashLine ↔ e ∈ [".sh", ".yaml", ".yml"]) ∧
    classify (splitext_ext "foo.gradle.kts") = Dialect.CLikeBlock := by
  refine ⟨?_, ?_, ?_, ?_⟩
  · intro e; rw [classify]
    split_ifs with h1 h2 h3 <;> simp_all [CLIKE_EXTS, XML_EXTS, HASH_EXTS]
  · intro e; rw [classify]
    split_ifs with h1 h2 h3 <;> simp_all [CLIKE_EXTS, XML_EXTS, HASH_EXTS]
    rcases h1 with rfl | rfl | rfl | rfl | rfl | rfl | rfl | rfl | rfl | rfl
      | rfl | rfl <;> decide
  · intro e; rw [classify]
    split_ifs with h1 h2 h3 <;> simp_all [CLIKE_EXTS, XML_EXTS, HASH_EXTS]
    all_goals first
      | (rcases h1 with rfl | rfl | rfl | rfl | rfl | rfl | rfl | rfl | rfl
          | rfl | rfl | rfl <;> decide)
      | (rcases h2 with rfl | rfl <;> decide)
  · decide

/-- C8: an extension of no recognized dialect passes through unchanged with
removed count 0 (no failure: the function is total). -/
theorem none_dialect_passthrough :
    ∀ (ext : String) (lines : List Line), classify ext = Dialect.NoDialect →
      remove_full_line_comments lines ext = (lines, 0) := by
  intro ext lines h
  revert h
  rw [classify, remove_full_line_comments]
  split_ifs <;> intro h
  · simp at h
  · simp at h
  · simp at h
  · rfl

/-- Witness for C8 at a concrete unrecognized extension. -/
theorem none_dialect_passthrough_witness :
    remove_full_line_comments [str "# x\n", str "// y\n"] ".py"
      = ([str "# x\n", str "// y\n"], 0) :=
  none_dialect_passthrough ".py" [str "# x\n", str "// y\n"] (by decide)

/-- C9: the two implementations differ: on an XML block comment spanning two
lines, `remove_full_line_comments` (remove_commented_lines.py) removes both
block lines, while the single-line regex filter of remove_comments.py
retains every line. -/
theorem engines_differ_on_multiline_xml :
    remove_full_line_comments
        (List.map str ["<!-- a\n", "b -->\n", "<x/>\n"]) ".xml"
      = ([str "<x/>\n"], 2) ∧
    xmlFilterRemoveComments (List.map str ["<!-- a\n", "b -->\n", "<x/>\n"])
      = List.map str ["<!-- a\n", "b -->\n", "<x/>\n"] :=
  ⟨by decide, by decide⟩

/-- C10: with the block flag clear, a C-like line containing a stray closer
`*/` that starts (after leading whitespace) with neither `//` nor `/*` is
retained unchanged and leaves the flag clear. -/
theorem stray_closer_retained :
    ∀ line : Line, containsSub (str "*/") line = true →
      (str "//").isPrefixOf (lstrip line) = false →
      (str "/*").isPrefixOf (lstrip line) = false →
      clikeStep false line = (false, some line) := by
  intro line _ h2 h3
  simp [clikeStep, h2, h3]

/-- Witness for C10 at a concrete line. -/
theorem stray_closer_retained_witness :
    clikeStep false (str "x */ y\n") = (false, some (str "x */ y\n")) :=
  stray_closer_retained (str "x */ y\n") (by decide) (by decide) (by decide)

end StepsTracker
